import Mathlib

/-!
Verification of the shell command-name extractor in
`src/minisweagent/utils/bash_parser.py`.

The Python module is shallowly embedded below. Pure string/list helper
functions are translated directly; the Python `try/except` blocks become
`Option`-valued functions; the two external dependencies (the `bashlex`
grammar engine and the stdlib `shlex` lexer) are modelled from the design
document, as noted in their doc comments.
-/

namespace BashParser

/-- Wrapper commands catalog (`_WRAPPERS` in the source). -/
def _WRAPPERS : List String :=
  ["sudo", "env", "command", "builtin", "time", "nice", "nohup", "chronic",
   "stdbuf", "setpriv", "chpst", "gosu", "su", "chroot", "ionice", "taskset"]

/-- `_COMMAND_SEPARATORS` in the source. -/
def _COMMAND_SEPARATORS : List String := ["|", "||", "&", "&&", ";", ";;", "(", ")"]

/-- `_REDIRECTION_TOKENS` in the source. -/
def _REDIRECTION_TOKENS : List String :=
  ["<", ">", "<<", ">>", "<<<", "<>", ">&", "<&", ">|", "<<-"]

/-- `_NON_COMMAND_TOKENS` in the source: the dollar sign, the exclamation
mark and the opening curly brace. -/
def _NON_COMMAND_TOKENS : List String := ["$", "!", "\x7b"]

/-- Python `s.startswith("-")`: the string begins with a dash character. -/
def startsWithDash (a : String) : Bool :=
  match a.toList with
  | c :: _ => c == '-'
  | [] => false

/-- The candidate NAME of an assignment word: the characters of `s`
before the first equals sign (Python `s.split("=", 1)[0]`). -/
def assignmentName (s : String) : List Char :=
  s.toList.takeWhile (fun c => !(c == '='))

/-- `_looks_like_assignment_word` in the source, with the early returns
folded into one conjunction: `"=" in s`, the part of `s` before the first
equals sign is nonempty, begins with a letter or an underscore and
consists of alphanumerics and underscores. (Python `isalpha`/`isalnum`
are applied to ASCII input here, so the ASCII readings
`Char.isAlpha`/`Char.isAlphanum` are the faithful translation.) -/
def _looks_like_assignment_word (s : String) : Bool :=
  s.toList.contains '=' && !(assignmentName s).isEmpty &&
    (((assignmentName s).headD ' ').isAlpha || (assignmentName s).headD ' ' == '_') &&
    (assignmentName s).all (fun c => c.isAlphanum || c == '_')

/-- The `wrapper == "env"` branch of `_infer_wrapped_command`: skip dash
options (`-u`/`--unset` also consume the following token when present) and
assignment words; a literal `--` ends the option scan, after which any
further assignment words are skipped and the next word is returned. -/
def envSkipArgs : List String → Option String
  | [] => none
  | [a] =>
    if a = "--" then none
    else if startsWithDash a then none
    else if _looks_like_assignment_word a then none
    else some a
  | a :: b :: rest2 =>
    if a = "--" then
      match (b :: rest2).dropWhile _looks_like_assignment_word with
      | [] => none
      | c :: _ => some c
    else if startsWithDash a then
      if a = "-u" ∨ a = "--unset" then envSkipArgs rest2
      else envSkipArgs (b :: rest2)
    else if _looks_like_assignment_word a then envSkipArgs (b :: rest2)
    else some a

/-- The `wrapper == "sudo"` branch of `_infer_wrapped_command`: skip dash
options, where `-u -g -h -p -U -t -C` also consume the following token when
present; a literal `--` ends the scan and the next word (if any) is
returned. -/
def sudoSkipArgs : List String → Option String
  | [] => none
  | [a] =>
    if a = "--" then none
    else if startsWithDash a then none
    else some a
  | a :: b :: rest2 =>
    if a = "--" then some b
    else if startsWithDash a then
      if a = "-u" ∨ a = "-g" ∨ a = "-h" ∨ a = "-p" ∨ a = "-U" ∨ a = "-t" ∨ a = "-C"
      then sudoSkipArgs rest2
      else sudoSkipArgs (b :: rest2)
    else some a

/-- The `wrapper in ("command", "builtin")` branch of
`_infer_wrapped_command`: skip every leading dash word. -/
def commandSkipArgs (args : List String) : Option String :=
  match args.dropWhile startsWithDash with
  | [] => none
  | b :: _ => some b

/-- The generic-wrapper branch of `_infer_wrapped_command` (`time`, `nice`,
`nohup`, ...): skip dash options, stopping at a literal `--` (consumed). -/
def genericSkipArgs : List String → Option String
  | [] => none
  | a :: rest =>
    if a = "--" then rest.head?
    else if startsWithDash a then genericSkipArgs rest
    else some a

/-- `_infer_wrapped_command` in the source: dispatch on the wrapper name;
an empty argument list yields nothing. -/
def _infer_wrapped_command (wrapper : String) (args : List String) : Option String :=
  if args.isEmpty then none
  else if wrapper = "env" then envSkipArgs args
  else if wrapper = "sudo" then sudoSkipArgs args
  else if wrapper = "command" ∨ wrapper = "builtin" then commandSkipArgs args
  else if wrapper ∈ ["time", "nice", "nohup", "chronic", "stdbuf", "setpriv",
                     "chpst", "gosu", "su", "chroot", "ionice", "taskset"]
  then genericSkipArgs args
  else none

/-- `_append_command_words` in the source: drop leading assignment-looking
words; if anything remains, append the first remaining word as the command
name, and, when that name is a cataloged wrapper, additionally append the
inferred wrapped command (when inferable). -/
def _append_command_words (words out : List String) : List String :=
  match words.dropWhile _looks_like_assignment_word with
  | [] => out
  | cmd0 :: restArgs =>
    let out2 := out ++ [cmd0]
    if cmd0 ∈ _WRAPPERS then
      match _infer_wrapped_command cmd0 restArgs with
      | some wrapped => out2 ++ [wrapped]
      | none => out2
    else out2

/-- Lexer modes of the POSIX tokenizer: between tokens, inside a plain
word, inside a run of punctuation characters, inside a single-quoted or
double-quoted region, or right after a backslash (from a word or from a
double-quoted region). -/
inductive LexMode where
  | space | word | punct | squote | dquote | escWord | escDq
deriving DecidableEq, Repr

/-- Shell whitespace recognized by the tokenizer: space, tab, CR, LF. -/
def isShWs (c : Char) : Bool := c == ' ' || c == '\t' || c == '\r' || c == '\n'

/-- The punctuation characters passed to the lexer in the source:
`"|&;()<>"`. -/
def isShPunct (c : Char) : Bool :=
  c == '|' || c == '&' || c == ';' || c == '(' || c == ')' || c == '<' || c == '>'

/-- Modelled from the spec: the POSIX-style lexer of the Fallback Tokenizer
Path (stdlib `shlex` with `posix=True`, `whitespace_split=True`,
`punctuation_chars="|&;()<>"`, comments disabled — not part of this
repository). Quoted regions become part of a single token, runs of
punctuation characters become their own tokens, backslash escapes the next
character (inside double quotes only the quote and the backslash), and
malformed quoting — an unterminated quote or a trailing escape — is a
lexing failure (`none`), mirroring the `ValueError` raised by `shlex`. -/
def shlexRun : List Char → LexMode → String → Bool → List String → Option (List String)
  | [], mode, tok, quoted, out =>
    match mode with
    | LexMode.squote | LexMode.dquote => none
    | LexMode.escWord | LexMode.escDq => none
    | _ => if tok ≠ "" ∨ quoted then some (out ++ [tok]) else some out
  | c :: rest, mode, tok, quoted, out =>
    match mode with
    | LexMode.space =>
      if isShWs c then shlexRun rest LexMode.space "" false out
      else if c == '\\' then shlexRun rest LexMode.escWord tok quoted out
      else if c == '\x27' then shlexRun rest LexMode.squote tok quoted out
      else if c == '"' then shlexRun rest LexMode.dquote tok quoted out
      else if isShPunct c then shlexRun rest LexMode.punct (String.singleton c) quoted out
      else shlexRun rest LexMode.word (String.singleton c) quoted out
    | LexMode.word =>
      if isShWs c then
        if tok ≠ "" ∨ quoted then shlexRun rest LexMode.space "" false (out ++ [tok])
        else shlexRun rest LexMode.space "" false out
      else if c == '\x27' then shlexRun rest LexMode.squote tok quoted out
      else if c == '"' then shlexRun rest LexMode.dquote tok quoted out
      else if c == '\\' then shlexRun rest LexMode.escWord tok quoted out
      else if isShPunct c then
        if tok ≠ "" ∨ quoted then
          shlexRun rest LexMode.punct (String.singleton c) false (out ++ [tok])
        else shlexRun rest LexMode.punct (String.singleton c) false out
      else shlexRun rest LexMode.word (tok.push c) quoted out
    | LexMode.punct =>
      if isShWs c then shlexRun rest LexMode.space "" false (out ++ [tok])
      else if isShPunct c then shlexRun rest LexMode.punct (tok.push c) quoted out
      else if c == '\\' then shlexRun rest LexMode.escWord "" false (out ++ [tok])
      else if c == '\x27' then shlexRun rest LexMode.squote "" false (out ++ [tok])
      else if c == '"' then shlexRun rest LexMode.dquote "" false (out ++ [tok])
      else shlexRun rest LexMode.word (String.singleton c) false (out ++ [tok])
    | LexMode.squote =>
      if c == '\x27' then shlexRun rest LexMode.word tok true out
      else shlexRun rest LexMode.squote (tok.push c) true out
    | LexMode.dquote =>
      if c == '"' then shlexRun rest LexMode.word tok true out
      else if c == '\\' then shlexRun rest LexMode.escDq tok true out
      else shlexRun rest LexMode.dquote (tok.push c) true out
    | LexMode.escWord => shlexRun rest LexMode.word (tok.push c) quoted out
    | LexMode.escDq =>
      if c == '\\' || c == '"' then shlexRun rest LexMode.dquote (tok.push c) quoted out
      else shlexRun rest LexMode.dquote ((tok.push '\\').push c) quoted out

/-- Tokenize a command line; `none` models the `ValueError` caught in
`_extract_executables_without_bashlex`. -/
def shlexTokenize (s : String) : Option (List String) :=
  shlexRun s.toList LexMode.space "" false []

/-- The token-scanning `while` loop of `_extract_executables_without_bashlex`:
a separator flushes the accumulated words through `_append_command_words`, a
redirection operator is consumed together with the single following token,
a marker symbol is dropped, and any other token joins the accumulator; at
end of input the accumulator is flushed. -/
def scanTokens : List String → List String → List String → List String
  | [], words, out => _append_command_words words out
  | token :: rest, words, out =>
    if token ∈ _COMMAND_SEPARATORS then
      scanTokens rest [] (_append_command_words words out)
    else if token ∈ _REDIRECTION_TOKENS then
      match rest with
      | [] => _append_command_words words out
      | _ :: rest2 => scanTokens rest2 words out
    else if token ∈ _NON_COMMAND_TOKENS then scanTokens rest words out
    else scanTokens rest (words ++ [token]) out

/-- `_extract_executables_without_bashlex` in the source: tokenize (a
lexing failure yields the empty list) and scan the tokens. -/
def _extract_executables_without_bashlex (cmdline : String) : List String :=
  match shlexTokenize cmdline with
  | none => []
  | some tokens => scanTokens tokens [] []

/-- Whitespace in the sense of the regex `\s` used by the heredoc
normalization pattern. -/
def isReSpace (c : Char) : Bool :=
  c == ' ' || c == '\t' || c == '\n' || c == '\r' || c == '\x0b' || c == '\x0c'

/-- First character of the regex identifier class `[A-Za-z_]`. -/
def isIdentStart (c : Char) : Bool := c.isAlpha || c == '_'

/-- Characters of the regex identifier class `[A-Za-z0-9_]`. -/
def isIdentChar (c : Char) : Bool := c.isAlphanum || c == '_'

/-- Match the heredoc regex of `_bashlex_fallback_source` — a heredoc
operator `<<` with optional dash, optional whitespace, then an identifier
delimiter wrapped in matching single or double quotes — at the head of the
character list. On success, return the replacement (groups 1 and 3: the
operator with the now-unquoted delimiter) and the characters following
the match. -/
def matchHeredocQuoted : List Char → Option (List Char × List Char)
  | '<' :: '<' :: rest =>
    let dashRest : List Char × List Char :=
      match rest with
      | '-' :: r => (['-'], r)
      | r => ([], r)
    let ws := dashRest.2.takeWhile isReSpace
    let rest2 := dashRest.2.dropWhile isReSpace
    match rest2 with
    | q :: c0 :: rest3 =>
      if (q == '\x27' || q == '"') && isIdentStart c0 then
        let ident := rest3.takeWhile isIdentChar
        let rest4 := rest3.dropWhile isIdentChar
        match rest4 with
        | q2 :: rest5 =>
          if q2 == q then some ('<' :: '<' :: dashRest.1 ++ ws ++ c0 :: ident, rest5)
          else none
        | [] => none
      else none
    | _ => none
  | _ => none

/-- Left-to-right, non-overlapping substitution of the quoted-heredoc
pattern (the `re.sub` in `_bashlex_fallback_source`). The `Bool` result
records whether any occurrence was found. Fuel is the input length, which
suffices since every match consumes at least one character. -/
def heredocSubFuel : Nat → List Char → Bool × List Char
  | 0, l => (false, l)
  | _ + 1, [] => (false, [])
  | fuel + 1, c :: rest =>
    match matchHeredocQuoted (c :: rest) with
    | some (rep, after) =>
      let r := heredocSubFuel fuel after
      (true, rep ++ r.2)
    | none =>
      let r := heredocSubFuel fuel rest
      (r.1, c :: r.2)

/-- Characters counted as indentation by `textwrap.dedent`. -/
def isIndentChar (c : Char) : Bool := c == ' ' || c == '\t'

/-- Longest common prefix of two character lists, as computed by the
margin-merging loop of `textwrap.dedent`. -/
def indentMerge : List Char → List Char → List Char
  | x :: xs, y :: ys => if x = y then x :: indentMerge xs ys else []
  | _, _ => []

/-- Split on newline characters (Python `text.split("\n")` semantics). -/
def splitLines : List Char → List (List Char)
  | [] => [[]]
  | c :: rest =>
    let r := splitLines rest
    if c = '\n' then [] :: r
    else
      match r with
      | l :: ls => (c :: l) :: ls
      | [] => [[c]]

/-- Rejoin lines with newline characters. -/
def joinLines : List (List Char) → List Char
  | [] => []
  | [l] => l
  | l :: ls => l ++ '\n' :: joinLines ls

/-- `textwrap.dedent` (stdlib, called by `_bashlex_fallback_source`):
lines consisting solely of spaces and tabs are normalized to empty lines;
the margin is the longest common leading space/tab prefix of the lines
that carry other content and is removed from every line starting with
it. -/
def dedent (text : List Char) : List Char :=
  let lines := (splitLines text).map (fun l =>
    if !l.isEmpty && l.all isIndentChar then [] else l)
  let indents := lines.filterMap (fun l =>
    if l.isEmpty then none else some (l.takeWhile isIndentChar))
  let margin :=
    match indents with
    | [] => ([] : List Char)
    | m :: ms => ms.foldl indentMerge m
  if margin.isEmpty then joinLines lines
  else
    joinLines (lines.map (fun l =>
      if l.take margin.length = margin then l.drop margin.length else l))

/-- `_bashlex_fallback_source` in the source: rewrite quoted heredoc
delimiters to their unquoted form, then dedent the whole text. -/
def _bashlex_fallback_source (src : String) : String :=
  String.mk (dedent (heredocSubFuel (src.toList.length + 1) src.toList).2)

/-- Whether the quoted-heredoc pattern occurs anywhere in the text — the
documented condition under which the external grammar engine fails to
parse (source comment: bashlex can fail on quoted heredoc delimiters such
as a single-quoted EOF). -/
def containsQuotedHeredoc (src : String) : Bool :=
  (heredocSubFuel (src.toList.length + 1) src.toList).1

/-- A part of a simple-command node: a word, or a structurally attached
non-word part (redirection operators, their targets, marker symbols),
which `_handle_command_node` ignores when collecting words. -/
inductive BashPart where
  | word (w : String)
  | redirectOp (s : String)
deriving DecidableEq, Repr

/-- A node of the syntax tree produced by the modelled grammar engine: a
simple-command node together with its ordered parts. -/
inductive BashNode where
  | command (parts : List BashPart)
deriving DecidableEq, Repr

/-- Group the word tokens of one simple command into parts, attaching
redirection operators and their targets (and marker symbols) as non-word
parts. -/
def groupParts : List String → List BashPart
  | [] => []
  | t :: rest =>
    if t ∈ _REDIRECTION_TOKENS then
      match rest with
      | [] => [BashPart.redirectOp t]
      | u :: rest2 => BashPart.redirectOp t :: BashPart.redirectOp u :: groupParts rest2
    else if t ∈ _NON_COMMAND_TOKENS then BashPart.redirectOp t :: groupParts rest
    else BashPart.word t :: groupParts rest

/-- Split a token stream into simple-command nodes at command
separators. The first argument accumulates (reversed) the tokens of the
current command. -/
def groupCommandsAux : List String → List String → List BashNode
  | acc, [] =>
    if acc.isEmpty then [] else [BashNode.command (groupParts acc.reverse)]
  | acc, t :: rest =>
    if t ∈ _COMMAND_SEPARATORS then
      (if acc.isEmpty then [] else [BashNode.command (groupParts acc.reverse)])
        ++ groupCommandsAux [] rest
    else groupCommandsAux (t :: acc) rest

/-- Modelled from the spec: the external grammar engine (`bashlex`, not
part of this repository). It parses a command line into syntax trees whose
simple-command nodes carry ordered word parts; it fails (raises, here
`none`) on quoted heredoc delimiters — the documented limitation that
`_bashlex_fallback_source` exists to work around — and on malformed
quoting. -/
def bashlexParse (src : String) : Option (List BashNode) :=
  if containsQuotedHeredoc src then none
  else
    match shlexTokenize src with
    | none => none
    | some tokens => some (groupCommandsAux [] tokens)

/-- `_word_text` in the source: the text of a word-kind part, `None` for
other parts. -/
def _word_text : BashPart → Option String
  | BashPart.word w => some w
  | BashPart.redirectOp _ => none

/-- `_handle_command_node` in the source: collect the word-kind parts of a
simple-command node, in order, and feed them to `_append_command_words`. -/
def _handle_command_node : BashNode → List String → List String
  | BashNode.command parts, out => _append_command_words (parts.filterMap _word_text) out

/-- `_walk` over all trees: depth-first visit of every node, routing each
simple-command node through `_handle_command_node`. -/
def _walk (trees : List BashNode) (out : List String) : List String :=
  trees.foldl (fun o n => _handle_command_node n o) out

/-- `extract_executables` in the source (grammar-aware path, the one taken
when the grammar engine is importable): parse; on failure, retry exactly
once on the heredoc-normalized, dedented text; if the retry also fails,
return the empty list; otherwise walk the resulting trees. -/
def extract_executables (cmdline : String) : List String :=
  match bashlexParse cmdline with
  | some trees => _walk trees []
  | none =>
    match bashlexParse (_bashlex_fallback_source cmdline) with
    | some trees => _walk trees []
    | none => []

theorem dropWhile_append_all {p : String → Bool} :
    ∀ (pre l : List String), (∀ x ∈ pre, p x = true) →
      List.dropWhile p (pre ++ l) = List.dropWhile p l := by
  intro pre
  induction pre with
  | nil => intro l _; rfl
  | cons a as ih =>
    intro l h
    rw [List.cons_append, List.dropWhile_cons, if_pos (h a (by simp))]
    exact ih l (fun x hx => h x (by simp [hx]))

theorem dropWhile_eq_nil_all {p : String → Bool} :
    ∀ (l : List String), (∀ x ∈ l, p x = true) → List.dropWhile p l = [] := by
  intro l
  induction l with
  | nil => intro _; rfl
  | cons a as ih =>
    intro h
    rw [List.dropWhile_cons, if_pos (h a (by simp))]
    exact ih (fun x hx => h x (by simp [hx]))

theorem dropWhile_head_false {p : String → Bool} :
    ∀ (l : List String) (c : String) (cs : List String),
      List.dropWhile p l = c :: cs → p c = false := by
  intro l
  induction l with
  | nil => intro c cs h; cases h
  | cons a as ih =>
    intro c cs h
    rw [List.dropWhile_cons] at h
    by_cases hpa : p a = true
    · rw [if_pos hpa] at h; exact ih c cs h
    · rw [if_neg hpa] at h
      injection h with h1 _
      subst h1
      exact Bool.eq_false_iff.mpr hpa

/-- C1: for every input string — empty, malformed-quoted, or arbitrarily
deeply nested — both the grammar-aware extraction and the fallback
extraction are total functions into lists of strings: every internal parse
or tokenization failure is absorbed (as an `Option` here, as a caught
exception in the source) and a list is always returned to the caller. -/
theorem extract_executables_total (s : String) :
    ∃ out : List String, extract_executables s = out ∧
      ∃ outFb : List String, _extract_executables_without_bashlex s = outFb :=
  ⟨extract_executables s, rfl, _extract_executables_without_bashlex s, rfl⟩

theorem extract_executables_total_witness :
    ∃ out : List String, extract_executables "ls -la /tmp" = out ∧
      ∃ outFb : List String, _extract_executables_without_bashlex "ls -la /tmp" = outFb :=
  extract_executables_total "ls -la /tmp"

/-- C3: leading assignment-shaped words of a simple command are skipped
before the command name is taken; a word list consisting only of
assignment-shaped words contributes nothing; and
`extract_executables "FOO=bar BAZ=qux mycmd arg1" = ["mycmd"]`. -/
theorem assignment_words_skipped :
    (∀ (pre : List String) (w : String) (rest out : List String),
        (∀ x ∈ pre, _looks_like_assignment_word x = true) →
        _looks_like_assignment_word w = false →
        _append_command_words (pre ++ w :: rest) out = _append_command_words (w :: rest) out) ∧
    (∀ words out : List String, (∀ x ∈ words, _looks_like_assignment_word x = true) →
        _append_command_words words out = out) ∧
    extract_executables "FOO=bar BAZ=qux mycmd arg1" = ["mycmd"] := by
  refine ⟨?_, ?_, by decide⟩
  · intro pre w rest out hpre _
    unfold _append_command_words
    rw [dropWhile_append_all pre (w :: rest) hpre]
  · intro words out h
    unfold _append_command_words
    rw [dropWhile_eq_nil_all words h]

theorem assignment_words_skipped_witness :
    _append_command_words (["FOO=1"] ++ "ls" :: ([] : List String)) [] =
      _append_command_words ("ls" :: ([] : List String)) [] :=
  assignment_words_skipped.1 ["FOO=1"] "ls" [] [] (by decide) (by decide)

/-- C7: on the simple pipeline `"cat file | grep foo | sort"`, the
grammar-aware path and the fallback tokenizer path agree and both return
exactly `["cat", "grep", "sort"]`, in source order. -/
theorem pipeline_paths_agree :
    extract_executables "cat file | grep foo | sort" = ["cat", "grep", "sort"] ∧
    _extract_executables_without_bashlex "cat file | grep foo | sort" = ["cat", "grep", "sort"] :=
  ⟨by decide, by decide⟩

/-- C8: a tokenization failure (malformed quoting, e.g. an unterminated
quote) makes the fallback path return the empty list immediately, and on
the concrete input "echo \x27unterminated" the lexer does fail and the
result is `[]`, with no error escaping. -/
theorem unterminated_quote_empty :
    (∀ s : String, shlexTokenize s = none → _extract_executables_without_bashlex s = []) ∧
    shlexTokenize "echo \x27unterminated" = none ∧
    _extract_executables_without_bashlex "echo \x27unterminated" = [] ∧
    extract_executables "echo \x27unterminated" = [] := by
  refine ⟨?_, by decide, by decide, by decide⟩
  intro s h
  unfold _extract_executables_without_bashlex
  rw [h]

theorem unterminated_quote_empty_witness :
    _extract_executables_without_bashlex "echo \x27unterminated" = [] :=
  unterminated_quote_empty.1 "echo \x27unterminated" (by decide)

/-- C9: in the fallback scan, every redirection-operator token is consumed
together with the single token following it, leaving the word accumulator
untouched (also when it is the final token), and every marker-symbol token
is dropped without joining the accumulator. -/
theorem fallback_scan_consumption :
    (∀ (t next : String) (rest words out : List String), t ∈ _REDIRECTION_TOKENS →
        scanTokens (t :: next :: rest) words out = scanTokens rest words out) ∧
    (∀ (t : String) (words out : List String), t ∈ _REDIRECTION_TOKENS →
        scanTokens [t] words out = _append_command_words words out) ∧
    (∀ (t : String) (rest words out : List String), t ∈ _NON_COMMAND_TOKENS →
        scanTokens (t :: rest) words out = scanTokens rest words out) := by
  refine ⟨?_, ?_, ?_⟩
  · intro t next rest words out ht
    simp only [_REDIRECTION_TOKENS] at ht
    fin_cases ht <;> rfl
  · intro t words out ht
    simp only [_REDIRECTION_TOKENS] at ht
    fin_cases ht <;> rfl
  · intro t rest words out ht
    simp only [_NON_COMMAND_TOKENS] at ht
    fin_cases ht <;> cases rest <;> rfl

theorem fallback_scan_consumption_witness :
    scanTokens ["<", "target"] [] [] = scanTokens [] [] [] ∧
    scanTokens ["$"] ["echo"] [] = scanTokens [] ["echo"] [] :=
  ⟨fallback_scan_consumption.1 "<" "target" [] [] [] (by decide),
   fallback_scan_consumption.2.2 "$" [] ["echo"] [] (by decide)⟩

/-- C10: one simple command appends at most two names — the command name
and possibly one inferred wrapped name, the latter only when the command
name is a cataloged wrapper — and the appended command name is never
assignment-shaped. -/
theorem resolver_output_invariant (words out : List String) :
    ∃ app : List String,
      _append_command_words words out = out ++ app ∧
      app.length ≤ 2 ∧
      (∀ c cs, app = c :: cs →
        _looks_like_assignment_word c = false ∧ (cs ≠ [] → c ∈ _WRAPPERS)) := by
  unfold _append_command_words
  cases hd : List.dropWhile _looks_like_assignment_word words with
  | nil =>
    refine ⟨[], by simp, by simp, ?_⟩
    intro c cs h; cases h
  | cons cmd0 restArgs =>
    have hcmd : _looks_like_assignment_word cmd0 = false :=
      dropWhile_head_false words cmd0 restArgs hd
    by_cases hw : cmd0 ∈ _WRAPPERS
    · cases hi : _infer_wrapped_command cmd0 restArgs with
      | none =>
        refine ⟨[cmd0], by simp [hw, hi], by simp, ?_⟩
        intro c cs h
        injection h with h1 h2
        subst h1; subst h2
        exact ⟨hcmd, fun hne => absurd rfl hne⟩
      | some x =>
        refine ⟨[cmd0, x], by simp [hw, hi], by simp, ?_⟩
        intro c cs h
        injection h with h1 h2
        subst h1; subst h2
        exact ⟨hcmd, fun _ => hw⟩
    · refine ⟨[cmd0], by simp [hw], by simp, ?_⟩
      intro c cs h
      injection h with h1 h2
      subst h1; subst h2
      exact ⟨hcmd, fun hne => absurd rfl hne⟩

theorem resolver_output_invariant_witness :
    ∃ app : List String,
      _append_command_words ["FOO=1", "sudo", "ls"] [] = [] ++ app ∧
      app.length ≤ 2 ∧
      (∀ c cs, app = c :: cs →
        _looks_like_assignment_word c = false ∧ (cs ≠ [] → c ∈ _WRAPPERS)) :=
  resolver_output_invariant ["FOO=1", "sudo", "ls"] []

/-- C2: on the grammar-aware path, a failing parse is retried exactly once
on the heredoc-normalized text: if the retry also fails the result is the
empty list, if it succeeds its trees are walked; and on the concrete
quoted-heredoc input "cat <<\x27EOF\x27\nhi\nEOF" the initial parse
fails, nothing is raised, and the result includes `"cat"`. -/
theorem heredoc_normalization_retry :
    (∀ s : String, bashlexParse s = none →
        bashlexParse (_bashlex_fallback_source s) = none →
        extract_executables s = []) ∧
    (∀ (s : String) (trees : List BashNode), bashlexParse s = none →
        bashlexParse (_bashlex_fallback_source s) = some trees →
        extract_executables s = _walk trees []) ∧
    bashlexParse "cat <<\x27EOF\x27\nhi\nEOF" = none ∧
    "cat" ∈ extract_executables "cat <<\x27EOF\x27\nhi\nEOF" := by
  refine ⟨?_, ?_, by decide, by decide⟩
  · intro s h1 h2
    unfold extract_executables
    rw [h1, h2]
  · intro s trees h1 h2
    unfold extract_executables
    rw [h1, h2]

theorem heredoc_normalization_retry_witness :
    extract_executables "echo \x27x" = [] :=
  heredoc_normalization_retry.1 "echo \x27x" (by decide) (by decide)

theorem infer_sudo_eq (l : List String) :
    _infer_wrapped_command "sudo" l = sudoSkipArgs l := by
  cases l with
  | nil => rfl
  | cons a rest => rfl

theorem infer_env_eq (l : List String) :
    _infer_wrapped_command "env" l = envSkipArgs l := by
  cases l with
  | nil => rfl
  | cons a rest => rfl

theorem assignment_not_dash (a : String) (h : _looks_like_assignment_word a = true) :
    startsWithDash a = false := by
  unfold startsWithDash
  cases hcs : a.toList with
  | nil => rfl
  | cons c cs =>
    by_cases hdash : c = '-'
    · subst hdash
      exfalso
      unfold _looks_like_assignment_word assignmentName at h
      rw [hcs, List.takeWhile_cons] at h
      rw [show (!(('-') == '=')) = true from rfl, if_pos rfl] at h
      simp only [List.headD_cons, Bool.and_eq_true] at h
      exact absurd h.1.2 (by decide)
    · simp [hdash]

theorem assignment_not_double_dash (a : String)
    (h : _looks_like_assignment_word a = true) : a ≠ "--" := by
  intro e
  rw [e] at h
  exact absurd h (by decide)

/-- C4: the `sudo` skip rule — an argument-consuming option (`-u -g -h -p
-U -t -C`) is skipped together with its following token, any other dash
option is skipped alone, a literal `--` stops the scan and the next word
(if any) is the wrapped command, the first non-dash word is the wrapped
command; the wrapped name is appended additively after `"sudo"`; and
`extract_executables "sudo -u root apt-get update" = ["sudo", "apt-get"]`. -/
theorem sudo_inference_rules :
    (∀ (a b : String) (rest : List String),
        (a = "-u" ∨ a = "-g" ∨ a = "-h" ∨ a = "-p" ∨ a = "-U" ∨ a = "-t" ∨ a = "-C") →
        _infer_wrapped_command "sudo" (a :: b :: rest) = _infer_wrapped_command "sudo" rest) ∧
    (∀ (a : String) (rest : List String), startsWithDash a = true → a ≠ "--" →
        ¬(a = "-u" ∨ a = "-g" ∨ a = "-h" ∨ a = "-p" ∨ a = "-U" ∨ a = "-t" ∨ a = "-C") →
        _infer_wrapped_command "sudo" (a :: rest) = _infer_wrapped_command "sudo" rest) ∧
    (∀ rest : List String, _infer_wrapped_command "sudo" ("--" :: rest) = rest.head?) ∧
    (∀ (a : String) (rest : List String), startsWithDash a = false →
        _infer_wrapped_command "sudo" (a :: rest) = some a) ∧
    (∀ (args out : List String), _append_command_words ("sudo" :: args) out =
        out ++ "sudo" :: (_infer_wrapped_command "sudo" args).toList) ∧
    extract_executables "sudo -u root apt-get update" = ["sudo", "apt-get"] := by
  refine ⟨?_, ?_, ?_, ?_, ?_, by decide⟩
  · intro a b rest h
    rcases h with rfl | rfl | rfl | rfl | rfl | rfl | rfl <;>
      rw [infer_sudo_eq, infer_sudo_eq] <;> rfl
  · intro a rest hd hne hnot
    rw [infer_sudo_eq, infer_sudo_eq]
    cases rest with
    | nil =>
      simp only [sudoSkipArgs]
      rw [if_neg hne, if_pos hd]
    | cons b rest2 =>
      simp only [sudoSkipArgs]
      rw [if_neg hne, if_pos hd, if_neg hnot]
  · intro rest
    cases rest with
    | nil => rfl
    | cons b rest2 => rfl
  · intro a rest hd
    have hne : a ≠ "--" := by
      intro e; rw [e] at hd; exact absurd hd (by decide)
    rw [infer_sudo_eq]
    cases rest with
    | nil =>
      simp only [sudoSkipArgs]
      rw [if_neg hne, if_neg (by simp [hd])]
    | cons b rest2 =>
      simp only [sudoSkipArgs]
      rw [if_neg hne, if_neg (by simp [hd])]
  · intro args out
    cases h : _infer_wrapped_command "sudo" args <;>
      simp [_append_command_words, List.dropWhile_cons,
            (by decide : _looks_like_assignment_word "sudo" = false),
            (by decide : ("sudo" : String) ∈ _WRAPPERS), h]

theorem sudo_inference_rules_witness :
    _infer_wrapped_command "sudo" ["-u", "root", "apt-get", "update"] =
      _infer_wrapped_command "sudo" ["apt-get", "update"] :=
  sudo_inference_rules.1 "-u" "root" ["apt-get", "update"] (Or.inl rfl)

/-- C5: the `env` skip rule — `-u`/`--unset` are skipped together with
their following token, any other dash option is skipped alone, leading
assignment words are skipped, a literal `--` stops the option scan after
which further assignment words are skipped and the next word is the
wrapped command, the first remaining word is the wrapped command; the
wrapped name is appended additively after `"env"`; and
`extract_executables "env -i FOO=1 python3 script.py" = ["env", "python3"]`. -/
theorem env_inference_rules :
    (∀ (a b : String) (rest : List String), (a = "-u" ∨ a = "--unset") →
        _infer_wrapped_command "env" (a :: b :: rest) = _infer_wrapped_command "env" rest) ∧
    (∀ (a : String) (rest : List String), startsWithDash a = true → a ≠ "--" →
        ¬(a = "-u" ∨ a = "--unset") →
        _infer_wrapped_command "env" (a :: rest) = _infer_wrapped_command "env" rest) ∧
    (∀ (a : String) (rest : List String), _looks_like_assignment_word a = true →
        _infer_wrapped_command "env" (a :: rest) = _infer_wrapped_command "env" rest) ∧
    (∀ rest : List String, _infer_wrapped_command "env" ("--" :: rest) =
        (rest.dropWhile _looks_like_assignment_word).head?) ∧
    (∀ (a : String) (rest : List String), startsWithDash a = false →
        _looks_like_assignment_word a = false →
        _infer_wrapped_command "env" (a :: rest) = some a) ∧
    (∀ (args out : List String), _append_command_words ("env" :: args) out =
        out ++ "env" :: (_infer_wrapped_command "env" args).toList) ∧
    extract_executables "env -i FOO=1 python3 script.py" = ["env", "python3"] := by
  refine ⟨?_, ?_, ?_, ?_, ?_, ?_, by decide⟩
  · intro a b rest h
    rcases h with rfl | rfl <;> rw [infer_env_eq, infer_env_eq] <;> rfl
  · intro a rest hd hne hnot
    rw [infer_env_eq, infer_env_eq]
    cases rest with
    | nil =>
      simp only [envSkipArgs]
      rw [if_neg hne, if_pos hd]
    | cons b rest2 =>
      simp only [envSkipArgs]
      rw [if_neg hne, if_pos hd, if_neg hnot]
  · intro a rest h
    have hne : a ≠ "--" := assignment_not_double_dash a h
    have hd : startsWithDash a = false := assignment_not_dash a h
    rw [infer_env_eq, infer_env_eq]
    cases rest with
    | nil =>
      simp only [envSkipArgs]
      rw [if_neg hne, if_neg (by simp [hd]), if_pos h]
    | cons b rest2 =>
      simp only [envSkipArgs]
      rw [if_neg hne, if_neg (by simp [hd]), if_pos h]
  · intro rest
    cases rest with
    | nil => rfl
    | cons b rest2 =>
      rw [infer_env_eq]
      simp only [envSkipArgs, if_true]
      cases hd : (b :: rest2).dropWhile _looks_like_assignment_word <;> simp [hd]
  · intro a rest hd ha
    have hne : a ≠ "--" := by
      intro e; rw [e] at hd; exact absurd hd (by decide)
    rw [infer_env_eq]
    cases rest with
    | nil =>
      simp only [envSkipArgs]
      rw [if_neg hne, if_neg (by simp [hd]), if_neg (by simp [ha])]
    | cons b rest2 =>
      simp only [envSkipArgs]
      rw [if_neg hne, if_neg (by simp [hd]), if_neg (by simp [ha])]
  · intro args out
    cases h : _infer_wrapped_command "env" args <;>
      simp [_append_command_words, List.dropWhile_cons,
            (by decide : _looks_like_assignment_word "env" = false),
            (by decide : ("env" : String) ∈ _WRAPPERS), h]

theorem env_inference_rules_witness :
    _infer_wrapped_command "env" ["-i", "FOO=1", "python3"] =
      _infer_wrapped_command "env" ["FOO=1", "python3"] :=
  env_inference_rules.2.1 "-i" ["FOO=1", "python3"] (by decide) (by decide) (by decide)

theorem sudoSkipArgs_exhaust :
    ∀ (n : Nat) (args : List String), args.length ≤ n →
      (∀ a ∈ args, startsWithDash a = true ∧ a ≠ "--") →
      sudoSkipArgs args = none := by
  intro n
  induction n with
  | zero =>
    intro args hlen _
    rw [List.length_eq_zero.mp (Nat.le_zero.mp hlen)]
    rfl
  | succ n ih =>
    intro args hlen h
    rcases args with _ | ⟨a, _ | ⟨b, rest2⟩⟩
    · rfl
    · obtain ⟨hd, hne⟩ := h a (by simp)
      simp only [sudoSkipArgs]
      rw [if_neg hne, if_pos hd]
    · obtain ⟨hd, hne⟩ := h a (by simp)
      simp only [sudoSkipArgs]
      rw [if_neg hne, if_pos hd]
      by_cases hu : a = "-u" ∨ a = "-g" ∨ a = "-h" ∨ a = "-p" ∨ a = "-U" ∨ a = "-t" ∨ a = "-C"
      · rw [if_pos hu]
        exact ih rest2 (by simp [List.length_cons] at hlen ⊢; omega)
          (fun x hx => h x (by simp [hx]))
      · rw [if_neg hu]
        exact ih (b :: rest2) (by simp [List.length_cons] at hlen ⊢; omega)
          (fun x hx => h x (by simp [hx]))

theorem envSkipArgs_exhaust :
    ∀ (n : Nat) (args : List String), args.length ≤ n →
      (∀ a ∈ args, (startsWithDash a = true ∧ a ≠ "--") ∨ _looks_like_assignment_word a = true) →
      envSkipArgs args = none := by
  intro n
  induction n with
  | zero =>
    intro args hlen _
    rw [List.length_eq_zero.mp (Nat.le_zero.mp hlen)]
    rfl
  | succ n ih =>
    intro args hlen h
    rcases args with _ | ⟨a, _ | ⟨b, rest2⟩⟩
    · rfl
    · rcases h a (by simp) with ⟨hd, hne⟩ | hassign
      · simp only [envSkipArgs]
        rw [if_neg hne, if_pos hd]
      · simp only [envSkipArgs]
        rw [if_neg (assignment_not_double_dash a hassign),
            if_neg (by simp [assignment_not_dash a hassign]), if_pos hassign]
    · rcases h a (by simp) with ⟨hd, hne⟩ | hassign
      · simp only [envSkipArgs]
        rw [if_neg hne, if_pos hd]
        by_cases hu : a = "-u" ∨ a = "--unset"
        · rw [if_pos hu]
          exact ih rest2 (by simp [List.length_cons] at hlen ⊢; omega)
            (fun x hx => h x (by simp [hx]))
        · rw [if_neg hu]
          exact ih (b :: rest2) (by simp [List.length_cons] at hlen ⊢; omega)
            (fun x hx => h x (by simp [hx]))
      · simp only [envSkipArgs]
        rw [if_neg (assignment_not_double_dash a hassign),
            if_neg (by simp [assignment_not_dash a hassign]), if_pos hassign]
        exact ih (b :: rest2) (by simp [List.length_cons] at hlen ⊢; omega)
          (fun x hx => h x (by simp [hx]))

theorem genericSkipArgs_exhaust :
    ∀ (args : List String), (∀ a ∈ args, startsWithDash a = true ∧ a ≠ "--") →
      genericSkipArgs args = none := by
  intro args
  induction args with
  | nil => intro _; rfl
  | cons a rest ih =>
    intro h
    obtain ⟨hd, hne⟩ := h a (by simp)
    simp only [genericSkipArgs]
    rw [if_neg hne, if_pos hd]
    exact ih (fun x hx => h x (by simp [hx]))

theorem commandSkipArgs_exhaust (args : List String)
    (h : ∀ a ∈ args, startsWithDash a = true ∧ a ≠ "--") :
    commandSkipArgs args = none := by
  unfold commandSkipArgs
  rw [dropWhile_eq_nil_all args (fun x hx => (h x hx).1)]

/-- C6: for every cataloged wrapper, an empty argument list yields no
inferred wrapped command, and so does an argument list exhausted while
skipping dash options (for `env`, also assignment words) without reaching
a non-option word — no error in either case; and
`extract_executables "sudo" = ["sudo"]`. -/
theorem wrapper_inference_safe :
    (∀ w : String, w ∈ _WRAPPERS → _infer_wrapped_command w [] = none) ∧
    (∀ (w : String) (args : List String), w ∈ _WRAPPERS →
        (∀ a ∈ args, startsWithDash a = true ∧ a ≠ "--") →
        _infer_wrapped_command w args = none) ∧
    (∀ args : List String,
        (∀ a ∈ args, (startsWithDash a = true ∧ a ≠ "--") ∨
            _looks_like_assignment_word a = true) →
        _infer_wrapped_command "env" args = none) ∧
    extract_executables "sudo" = ["sudo"] := by
  refine ⟨?_, ?_, ?_, by decide⟩
  · intro w _; rfl
  · intro w args hw h
    cases args with
    | nil => rfl
    | cons a rest =>
      simp only [_WRAPPERS] at hw
      fin_cases hw
      all_goals first
        | exact sudoSkipArgs_exhaust (a :: rest).length (a :: rest) le_rfl h
        | exact envSkipArgs_exhaust (a :: rest).length (a :: rest) le_rfl
            (fun x hx => Or.inl (h x hx))
        | exact commandSkipArgs_exhaust (a :: rest) h
        | exact genericSkipArgs_exhaust (a :: rest) h
  · intro args h
    cases args with
    | nil => rfl
    | cons a rest => exact envSkipArgs_exhaust (a :: rest).length (a :: rest) le_rfl h

theorem wrapper_inference_safe_witness :
    _infer_wrapped_command "time" [] = none ∧
    _infer_wrapped_command "nice" ["-n"] = none :=
  ⟨wrapper_inference_safe.1 "time" (by decide),
   wrapper_inference_safe.2.1 "nice" ["-n"] (by decide) (by decide)⟩

end BashParser
